import Mathlib

/-!
Shallow embedding of `scraper.py` (SightReadle): the page-segmentation engine
that cuts a rasterized sheet-music page into per-exercise crops.

Pixel coordinates are modelled as `Int` (the Python code mixes `int(...)`
conversions with subtractions that can go negative); pixel values as `Nat`.
Images are lists of rows; a color pixel is a list of channel values.
-/

/-- Embeds the `bottom` computation of `extract_individual_exercises`
(scraper.py lines 135-151): for the last label (`none` next label) the page
bottom `H`; otherwise the staff regions strictly between the current label
y and the next label y are collected, and the bottom is
`min (next_y - 80) (max_staff_between + 100)` when any exist, else
`next_y - 80`.  `xs.foldl max x` is Python's `max(staff_between)`. -/
def bottomFor (H : Int) (staff : List Int) (y : Int) : Option Int → Int
  | none => H
  | some ny =>
    match staff.filter (fun s => decide (y < s) && decide (s < ny)) with
    | [] => ny - 80
    | x :: xs => min (ny - 80) (xs.foldl max x + 100)

/-- Embeds the minimum-height rule (scraper.py lines 153-155):
`if bottom - top < 200: bottom = top + 200`. -/
def floorBottom (top rawBottom : Int) : Int :=
  if rawBottom - top < 200 then top + 200 else rawBottom

/-- Embeds the loop body of `extract_individual_exercises`
(scraper.py lines 120-157) for one label and the remaining labels: the
current label's crop is `(top, bottom)` with `bottom` resolved by
`bottomFor` then floored by `floorBottom`, and the next label's top is
`bottom + 30` (`prev_bottom = exercise_bottom + 30`). -/
def resolveAux (H : Int) (staff : List Int) (top y : Int) : List Int → List (Int × Int)
  | [] => [(top, floorBottom top (bottomFor H staff y none))]
  | ny :: rest =>
    let bottom := floorBottom top (bottomFor H staff y (some ny))
    (top, bottom) :: resolveAux H staff (bottom + 30) ny rest

/-- The Boundary Resolver: pre-padding `(top, bottom)` crops for the label
y-positions `ys` (ascending), staff regions `staff`, page height `H`.
The first label's top is `max 0 (y - 150)` (scraper.py line 129). -/
def resolveCrops (H : Int) (staff : List Int) : List Int → List (Int × Int)
  | [] => []
  | y :: rest => resolveAux H staff (max 0 (y - 150)) y rest

/-- The pixel rectangle actually cropped from the page array. -/
structure CropRect where
  top : Int
  bottom : Int
  left : Int
  right : Int
deriving DecidableEq

/-- Embeds the padding/bounds step (scraper.py lines 159-169):
`top_padding = 5 if i == 0 else -50`, `crop_top = max(0, top - top_padding)`,
`crop_bottom = min(page_height, bottom + 70)`, `crop_left = max(0, 40)`,
`crop_right = min(page_width, page_width - 40)`. -/
def padCrop (H W : Int) (first : Bool) (c : Int × Int) : CropRect :=
  let tp : Int := if first then 5 else -50
  ⟨max 0 (c.1 - tp), min H (c.2 + 70), max 0 40, min W (W - 40)⟩

/-- The emitted pixel rectangles: the resolved crops with the per-index
padding applied (index 0 uses `top_padding = 5`, the rest `-50`). -/
def paddedCrops (H W : Int) (staff ys : List Int) : List CropRect :=
  match resolveCrops H staff ys with
  | [] => []
  | c :: cs => padCrop H W true c :: cs.map (padCrop H W false)

/-- Python's `\s` whitespace class over ASCII (scraper.py line 61 uses
`\s*` between the prefix and the digits). -/
def isPyWs (c : Char) : Bool :=
  c = ' ' || c = '\t' || c = '\n' || c = '\r' || c = '\x0b' || c = '\x0c'

/-- Case-insensitive literal-prefix stripping: `some rest` when `s` starts
(case-insensitively) with the pattern `p`, returning what follows. -/
def stripCI : List Char → List Char → Option (List Char)
  | [], s => some s
  | _ :: _, [] => none
  | a :: p, b :: s => if a.toLower = b.toLower then stripCI p s else none

/-- After the literal prefix, the regex `\s*\d+` demands zero or more
whitespace characters then at least one digit. -/
def digitsAfterWs (s : List Char) : Bool :=
  match s.dropWhile isPyWs with
  | [] => false
  | c :: _ => c.isDigit

/-- Embeds `re.match(r"(No\.|Number|Exercise)\s*\d+", text, re.IGNORECASE)`
(scraper.py line 61) on the trimmed span text. -/
def matchesLabel (t : List Char) : Bool :=
  (match stripCI "No.".toList t with | some r => digitsAfterWs r | none => false)
    || (match stripCI "Number".toList t with | some r => digitsAfterWs r | none => false)
    || (match stripCI "Exercise".toList t with | some r => digitsAfterWs r | none => false)

/-- Embeds `re.search(r"\d+", text)` (scraper.py line 63): the first maximal
run of digits anywhere in the text. -/
def firstDigitRun : List Char → Option (List Char)
  | [] => none
  | c :: rest =>
    if c.isDigit then some (c :: rest.takeWhile Char.isDigit) else firstDigitRun rest

def digitsToNat (ds : List Char) : Nat :=
  ds.foldl (fun n c => 10 * n + (c.toNat - 48)) 0

/-- `int(exercise_num.group())` (scraper.py line 66). -/
def labelNumber (t : List Char) : Option Nat :=
  (firstDigitRun t).map digitsToNat

/-- Python's `str.strip()` over the ASCII whitespace class. -/
def trimChars (t : List Char) : List Char :=
  ((t.dropWhile isPyWs).reverse.dropWhile isPyWs).reverse

/-- Embeds the span scan of `find_exercise_numbers` (scraper.py lines 55-70):
a span is `(text, y0)`; accepted spans contribute
`(parsed number, y0 * scale_factor)`.  PyMuPDF float coordinates are
modelled as integers with an integer scale factor. -/
def candidatesOf (spans : List (List Char × Int)) (scale : Int) : List (Nat × Int) :=
  spans.filterMap (fun sp =>
    let t := trimChars sp.1
    if matchesLabel t then (labelNumber t).map (fun n => (n, sp.2 * scale)) else none)

/-- Stable insertion into a y-sorted list (models Python's stable
`list.sort(key=lambda x: x["y_position"])`, scraper.py line 73). -/
def insertByY (x : Nat × Int) : List (Nat × Int) → List (Nat × Int)
  | [] => [x]
  | y :: ys => if x.2 ≤ y.2 then x :: y :: ys else y :: insertByY x ys

def sortByY : List (Nat × Int) → List (Nat × Int)
  | [] => []
  | x :: xs => insertByY x (sortByY xs)

/-- Embeds the duplicate-removal loop of `find_exercise_numbers`
(scraper.py lines 75-82): keep a label only when its number was not seen. -/
def dedupLabels : List (Nat × Int) → List Nat → List (Nat × Int)
  | [], _ => []
  | l :: rest, seen =>
    if l.1 ∈ seen then dedupLabels rest seen
    else l :: dedupLabels rest (l.1 :: seen)

/-- The Label Locator (scraper.py lines 50-83): scan spans, sort by
y-position, drop duplicate exercise numbers keeping the first. -/
def find_exercise_numbers (spans : List (List Char × Int)) (scale : Int) : List (Nat × Int) :=
  dedupLabels (sortByY (candidatesOf spans scale)) []

/-- Python's `min(group)` on a nonempty list (default 0 never reached on
the nonempty groups produced below). -/
def listMin : List Int → Int
  | [] => 0
  | x :: xs => xs.foldl min x

/-- Python's `max(group)` on a nonempty list. -/
def listMax : List Int → Int
  | [] => 0
  | x :: xs => xs.foldl max x

/-- Embeds the peak-grouping loop of `extract_exercises_visual`
(scraper.py lines 256-268): a new group starts exactly when the gap from
the previous peak is `>= 200`. -/
def groupPeaks : List Int → List (List Int)
  | [] => []
  | [p] => [[p]]
  | p :: q :: rest =>
    match groupPeaks (q :: rest) with
    | [] => [[p]]
    | g :: gs => if q - p < 200 then (p :: g) :: gs else [p] :: g :: gs

/-- Embeds the per-group crop of `extract_exercises_visual`
(scraper.py lines 271-273): `top = max(0, min(group) - 100)`,
`bottom = min(page_height, max(group) + 100)`.  One `(top, bottom)` pair per
emitted output image. -/
def visualCrops (H : Int) (peaks : List Int) : List (Int × Int) :=
  (groupPeaks peaks).map (fun g => (max 0 (listMin g - 100), min H (listMax g + 100)))

/-- Shape of `np.pad(img, ((t,b),(l,r),...), mode='constant')` on a
rectangular array of rows: `t` full white rows on top, `b` below, and `l`
(`r`) white entries prepended (appended) to every original row.  The entry
type is abstract so the same shape serves the 2-D branch (entry = pixel
value) and the 3-D branch (entry = channel vector). -/
def padArr {α : Type} (img : List (List α)) (white : α) (t b l r : Nat) : List (List α) :=
  let W := (img.headD []).length
  List.replicate t (List.replicate (l + W + r) white)
    ++ img.map (fun row => List.replicate l white ++ row ++ List.replicate r white)
    ++ List.replicate b (List.replicate (l + W + r) white)

/-- Embeds the grayscale branch of `add_white_padding` (scraper.py
lines 208-213): `np.pad(img, ((t,b),(l,r)), constant_values=255)`. -/
def padGray (img : List (List Nat)) (t b l r : Nat) : List (List Nat) :=
  padArr img 255 t b l r

/-- Embeds the color branch of `add_white_padding` (scraper.py
lines 201-207): `np.pad(img, ((t,b),(l,r),(0,0)), constant_values=255)` on a
rectangular `H x W x C` array; every added border pixel is all-255. -/
def padColor (img : List (List (List Nat))) (t b l r : Nat) : List (List (List Nat)) :=
  padArr img (List.replicate ((img.headD []).headD []).length 255) t b l r

/-- A numpy image is either a 2-D (grayscale) or 3-D (color) array;
`add_white_padding` branches on `len(img_array.shape)` (scraper.py line 201). -/
inductive NpImg where
  | gray (g : List (List Nat))
  | color (c : List (List (List Nat)))

/-- `add_white_padding` (scraper.py lines 199-215). -/
def add_white_padding (img : NpImg) (t b l r : Nat) : NpImg :=
  match img with
  | .color c => .color (padColor c t b l r)
  | .gray g => .gray (padGray g t b l r)

/-- Model of `cv2.cvtColor(..., cv2.COLOR_RGB2GRAY)` per pixel: the standard
luma combination `0.299 R + 0.587 G + 0.114 B`, in integer arithmetic. -/
def rgb2gray (px : List Nat) : Nat :=
  (299 * px.getD 0 0 + 587 * px.getD 1 0 + 114 * px.getD 2 0 + 500) / 1000

def toGray (img : List (List (List Nat))) : List (List Nat) :=
  img.map (fun row => row.map rgb2gray)

/-- Model of `cv2.cvtColor(..., cv2.COLOR_GRAY2RGB)`: the single channel is
replicated into three identical channels. -/
def gray2rgb (g : List (List Nat)) : List (List (List Nat)) :=
  g.map (fun row => row.map (fun v => [v, v, v]))

def pxAt (g : List (List Nat)) (d : Nat) (i j : Nat) : Nat :=
  (g.getD i []).getD j d

/-- Rebuild an image of the same row/column layout from an index function. -/
def mapIdx2 (g : List (List Nat)) (f : Nat → Nat → Nat) : List (List Nat) :=
  (List.range g.length).map (fun i =>
    (List.range (g.getD i []).length).map (fun j => f i j))

/-- Dilation with a 2 x 2 structuring element: windowed maximum.  Exact
border handling of the OpenCV call does not affect the properties proved
below (shape preservation and channel equality). -/
def dilate2 (g : List (List Nat)) : List (List Nat) :=
  mapIdx2 g (fun i j =>
    max (max (pxAt g 0 i j) (pxAt g 0 i (j + 1)))
      (max (pxAt g 0 (i + 1) j) (pxAt g 0 (i + 1) (j + 1))))

/-- Erosion with a 2 x 2 structuring element: windowed minimum. -/
def erode2 (g : List (List Nat)) : List (List Nat) :=
  mapIdx2 g (fun i j =>
    min (min (pxAt g 255 i j) (pxAt g 255 i (j + 1)))
      (min (pxAt g 255 (i + 1) j) (pxAt g 255 (i + 1) (j + 1))))

/-- `cv2.morphologyEx(gray, cv2.MORPH_CLOSE, kernel)` with a 2 x 2 kernel
(scraper.py line 226): dilation followed by erosion. -/
def closing2 (g : List (List Nat)) : List (List Nat) :=
  erode2 (dilate2 g)

/-- Embeds the 3-channel path of `clean_exercise_image` (scraper.py
lines 217-231): convert to grayscale, morphological closing, replicate the
gray channel back into RGB. -/
def clean_exercise_image (img : List (List (List Nat))) : List (List (List Nat)) :=
  gray2rgb (closing2 (toGray img))

example : resolveCrops 2000 [] [100, 1000] = [(0, 920), (950, 2000)] := by decide
example : matchesLabel "No.12".toList = true := by rfl
example : matchesLabel "no. 7 rest".toList = true := by rfl
example : matchesLabel "EXERCISE 3".toList = true := by rfl
example : matchesLabel "Nos 12".toList = false := by rfl
example : matchesLabel "Number x".toList = false := by rfl
example : labelNumber "No. 12abc3".toList = some 12 := by rfl
example : find_exercise_numbers
    [("No. 2".toList, 50), ("No. 1".toList, 10), ("No. 2".toList, 5)] 3
    = [(2, 15), (1, 30)] := by rfl
example : groupPeaks [100, 250, 600, 700] = [[100, 250], [600, 700]] := by decide
example : visualCrops 800 [100, 250, 600, 700] = [(0, 350), (500, 800)] := by decide
example : visualCrops 800 [] = [] := by rfl
example : padGray [[1, 2]] 1 1 1 1 =
    [[255, 255, 255, 255], [255, 1, 2, 255], [255, 255, 255, 255]] := by rfl
example : padColor [[[1, 2, 3]]] 1 0 1 0 =
    [[[255, 255, 255], [255, 255, 255]], [[255, 255, 255], [1, 2, 3]]] := by rfl
example : clean_exercise_image [[[10, 10, 10]]] = [[[10, 10, 10]]] := by rfl

/-! ### Helper lemmas: folded maximum (Python `max(list)`) -/

lemma foldlMax_mem : ∀ (xs : List Int) (x : Int), xs.foldl max x ∈ x :: xs := by
  intro xs
  induction xs with
  | nil => intro x; simp
  | cons y ys ih =>
    intro x
    have h := ih (max x y)
    simp only [List.foldl_cons]
    rcases List.mem_cons.1 h with h1 | h1
    · rcases max_choice x y with hm | hm
      · exact List.mem_cons.2 (Or.inl (h1.trans hm))
      · exact List.mem_cons.2 (Or.inr (List.mem_cons.2 (Or.inl (h1.trans hm))))
    · exact List.mem_cons.2 (Or.inr (List.mem_cons.2 (Or.inr h1)))

lemma le_foldlMax : ∀ (xs : List Int) (x a : Int), a ∈ x :: xs → a ≤ xs.foldl max x := by
  intro xs
  induction xs with
  | nil => intro x a ha; simp at ha; simp [ha]
  | cons y ys ih =>
    intro x a ha
    simp only [List.foldl_cons]
    rcases List.mem_cons.1 ha with rfl | ha'
    · exact le_trans (le_max_left a y) (ih _ _ (List.mem_cons_self _ _))
    · rcases List.mem_cons.1 ha' with rfl | ha''
      · exact le_trans (le_max_right x a) (ih _ _ (List.mem_cons_self _ _))
      · exact ih _ _ (List.mem_cons.2 (Or.inr ha''))

/-! ### Helper lemmas: the Boundary Resolver loop -/

lemma floorBottom_ge (top raw : Int) : top + 200 ≤ floorBottom top raw := by
  unfold floorBottom
  split <;> omega

/-- Combined induction on the resolver loop: crop count, head top, bounds of
each crop, the `+30` anchor chain, and strict ordering by top. -/
lemma resolveAux_spec (H : Int) (staff : List Int) :
    ∀ (rest : List Int) (top y : Int),
      (resolveAux H staff top y rest).length = rest.length + 1 ∧
      (resolveAux H staff top y rest).head?.map (fun c => c.1) = some top ∧
      (∀ c ∈ resolveAux H staff top y rest, top ≤ c.1 ∧ c.1 + 200 ≤ c.2) ∧
      List.Chain' (fun c c2 => c2.1 = c.2 + 30) (resolveAux H staff top y rest) ∧
      List.Chain' (fun c c2 => c.1 < c2.1) (resolveAux H staff top y rest) := by
  intro rest
  induction rest with
  | nil =>
    intro top y
    refine ⟨rfl, rfl, ?_, List.chain'_singleton _, List.chain'_singleton _⟩
    intro c hc
    simp only [resolveAux, List.mem_singleton] at hc
    subst hc
    exact ⟨le_refl _, floorBottom_ge _ _⟩
  | cons ny rest ih =>
    intro top y
    obtain ⟨hlen, hhead, hall, hch, hlt⟩ := ih (floorBottom top (bottomFor H staff y (some ny)) + 30) ny
    have hb := floorBottom_ge top (bottomFor H staff y (some ny))
    simp only [resolveAux]
    refine ⟨by simp [hlen], rfl, ?_, ?_, ?_⟩
    · intro c hc
      rcases List.mem_cons.1 hc with rfl | hc'
      · exact ⟨le_refl _, hb⟩
      · have := hall c hc'
        constructor
        · omega
        · exact this.2
    · refine List.chain'_cons'.2 ⟨?_, hch⟩
      intro c2 hc2
      have : (resolveAux H staff (floorBottom top (bottomFor H staff y (some ny)) + 30) ny rest).head?.map (fun c => c.1) = some ((floorBottom top (bottomFor H staff y (some ny))) + 30) := hhead
      rw [hc2] at this
      simpa using this
    · refine List.chain'_cons'.2 ⟨?_, hlt⟩
      intro c2 hc2
      have h2 : (some c2).map (fun c : Int × Int => c.1) = some ((floorBottom top (bottomFor H staff y (some ny))) + 30) := by
        rw [← hc2]; exact hhead
      have h3 : c2.1 = floorBottom top (bottomFor H staff y (some ny)) + 30 := by
        simpa using h2
      omega

lemma resolveCrops_mem_bounds (H : Int) (staff : List Int) (y : Int) (rest : List Int) :
    ∀ c ∈ resolveCrops H staff (y :: rest), 0 ≤ c.1 ∧ c.1 + 200 ≤ c.2 := by
  intro c hc
  obtain ⟨-, -, hall, -, -⟩ := resolveAux_spec H staff rest (max 0 (y - 150)) y
  simp only [resolveCrops] at hc
  have h := hall c hc
  have h0 : (0 : Int) ≤ max 0 (y - 150) := le_max_left _ _
  exact ⟨le_trans h0 h.1, h.2⟩

lemma resolveCrops_length (H : Int) (staff ys : List Int) :
    (resolveCrops H staff ys).length = ys.length := by
  cases ys with
  | nil => rfl
  | cons y rest => exact (resolveAux_spec H staff rest (max 0 (y - 150)) y).1

lemma resolveCrops_chain30 (H : Int) (staff ys : List Int) :
    List.Chain' (fun c c2 => c2.1 = c.2 + 30) (resolveCrops H staff ys) := by
  cases ys with
  | nil => exact List.chain'_nil
  | cons y rest => exact (resolveAux_spec H staff rest (max 0 (y - 150)) y).2.2.2.1

lemma resolveCrops_chainLt (H : Int) (staff ys : List Int) :
    List.Chain' (fun c c2 => c.1 < c2.1) (resolveCrops H staff ys) := by
  cases ys with
  | nil => exact List.chain'_nil
  | cons y rest => exact (resolveAux_spec H staff rest (max 0 (y - 150)) y).2.2.2.2

/-! ### C1: crop count, ordering, contiguity -/

/-- C1 counterexample: the crops do NOT tile contiguously.  With page
height 2000, no staff regions and labels at y = 100 and y = 1000, the
resolver yields crops `(0, 920)` and `(950, 2000)`: the second crop's top
is the first crop's pre-padding bottom plus 30, not equal to it. -/
theorem crops_not_contiguous_cex :
    ((resolveCrops 2000 [] [100, 1000]).getD 1 (0, 0)).1 ≠
      ((resolveCrops 2000 [] [100, 1000]).getD 0 (0, 0)).2 := by decide

/-- C1 (amended): for every page the Boundary Resolver produces exactly one
crop per label, the crops are strictly ascending by top, and consecutive
crops satisfy `crop[i+1].top = crop[i].bottom_pre_padding + 30` — a fixed
30-pixel inter-exercise buffer, so consecutive crops have a 30-pixel gap
rather than tiling contiguously. -/
theorem crop_count_order_buffer (H : Int) (staff ys : List Int) :
    (resolveCrops H staff ys).length = ys.length ∧
    List.Chain' (fun c c2 => c.1 < c2.1) (resolveCrops H staff ys) ∧
    List.Chain' (fun c c2 => c2.1 = c.2 + 30) (resolveCrops H staff ys) := by
  exact ⟨resolveCrops_length H staff ys, resolveCrops_chainLt H staff ys,
    resolveCrops_chain30 H staff ys⟩

/-! ### C5: minimum-height floor -/

/-- C5: if the raw resolved bottom leaves a height below the 200-pixel
floor, the bottom is extended to exactly `top + 200`; consequently every
resolved crop has height at least 200; and the (possibly extended) bottom
is the anchor for the next crop's top (next top = bottom + 30). -/
theorem min_height_enforced (H : Int) (staff ys : List Int) :
    (∀ top raw : Int, raw - top < 200 → floorBottom top raw = top + 200) ∧
    (∀ c ∈ resolveCrops H staff ys, 200 ≤ c.2 - c.1) ∧
    List.Chain' (fun c c2 => c2.1 = c.2 + 30) (resolveCrops H staff ys) := by
  refine ⟨?_, ?_, resolveCrops_chain30 H staff ys⟩
  · intro top raw h
    unfold floorBottom
    rw [if_pos h]
  · intro c hc
    cases ys with
    | nil => simp [resolveCrops] at hc
    | cons y rest =>
      have := resolveCrops_mem_bounds H staff y rest c hc
      omega

/-! ### C4: bounds of the emitted pixel rectangles -/

lemma padCrop_bounds (H W : Int) (fb : Bool) (c0 : Int × Int)
    (h0 : 0 ≤ c0.1) (h2 : c0.1 + 200 ≤ c0.2) :
    0 ≤ (padCrop H W fb c0).top ∧ (padCrop H W fb c0).bottom ≤ H ∧
      (padCrop H W fb c0).left = 40 ∧ (padCrop H W fb c0).right = W - 40 ∧
      (0 ≤ H → 0 ≤ (padCrop H W fb c0).bottom) := by
  simp only [padCrop]
  refine ⟨le_max_left _ _, min_le_left _ _, ?_, ?_, ?_⟩
  · exact max_eq_right (by norm_num)
  · exact min_eq_right (by omega)
  · intro hH
    exact le_min hH (by omega)

/-- C4 counterexample: with page height 100, width 1000, no staff regions
and labels at y = 0 and y = 50, the second emitted rectangle is
`(top 280, bottom 100)`: its top exceeds the page height and is not below
its bottom, so `0 <= top < bottom <= H` fails. -/
theorem crop_bounds_cex :
    ¬ ∀ c ∈ paddedCrops 100 1000 [] [0, 50], c.top < c.bottom := by decide

/-- C4 (amended): every emitted rectangle satisfies `0 <= top`,
`bottom <= H`, `left = 40`, `right = W - 40`, and `bottom >= 0` whenever
`H >= 0`; but `top < bottom` (and hence `top < H`) can fail — the
minimum-height extension near the page bottom can push a later crop's top
above the page height, and `left < right` requires `W > 80`. -/
theorem crop_bounds_amended (H W : Int) (staff ys : List Int) :
    ∀ c ∈ paddedCrops H W staff ys,
      0 ≤ c.top ∧ c.bottom ≤ H ∧ c.left = 40 ∧ c.right = W - 40 ∧
        (0 ≤ H → 0 ≤ c.bottom) := by
  intro c hc
  cases ys with
  | nil => simp [paddedCrops, resolveCrops] at hc
  | cons y rest =>
    have hmem := resolveCrops_mem_bounds H staff y rest
    revert hc
    cases hres : resolveCrops H staff (y :: rest) with
    | nil => intro hc; simp [paddedCrops, hres] at hc
    | cons c0 cs =>
      intro hc
      simp only [paddedCrops, hres, List.mem_cons, List.mem_map] at hc
      rcases hc with rfl | ⟨c1, hc1, rfl⟩
      · have h := hmem c0 (by rw [hres]; exact List.mem_cons_self _ _)
        exact padCrop_bounds H W true c0 h.1 h.2
      · have h := hmem c1 (by rw [hres]; exact List.mem_cons.2 (Or.inr hc1))
        exact padCrop_bounds H W false c1 h.1 h.2

theorem crop_bounds_amended_witness :
    0 ≤ (CropRect.mk 0 100 40 960).top ∧ (CropRect.mk 0 100 40 960).bottom ≤ 100 ∧
      (CropRect.mk 0 100 40 960).left = 40 ∧
      (CropRect.mk 0 100 40 960).right = 1000 - 40 ∧
      (0 ≤ (100 : Int) → 0 ≤ (CropRect.mk 0 100 40 960).bottom) :=
  crop_bounds_amended 100 1000 [] [0, 50] ⟨0, 100, 40, 960⟩ (by decide)

/-! ### C3: the bottom-resolution rule -/

/-- C3: for the last label the bottom is the page height `H`; for a label
with a successor at `ny`, if no staff region lies strictly between `y` and
`ny` the bottom is `ny - 80` (the fixed 80-pixel gap), and if at least one
does, the bottom is `min (ny - 80) (m + 100)` where `m` is the last (largest)
qualifying staff region and 100 the fixed trailing margin. -/
theorem bottom_rule_spec (H y ny : Int) (staff : List Int) :
    bottomFor H staff y none = H ∧
    ((∀ s ∈ staff, ¬(y < s ∧ s < ny)) → bottomFor H staff y (some ny) = ny - 80) ∧
    (∀ s0 ∈ staff, y < s0 → s0 < ny →
      ∃ m, m ∈ staff ∧ y < m ∧ m < ny ∧
        (∀ s ∈ staff, y < s → s < ny → s ≤ m) ∧
        bottomFor H staff y (some ny) = min (ny - 80) (m + 100)) := by
  refine ⟨rfl, ?_, ?_⟩
  · intro h
    cases hf : staff.filter (fun s => decide (y < s) && decide (s < ny)) with
    | nil => simp [bottomFor, hf]
    | cons x xs =>
      exfalso
      have hx : x ∈ staff.filter (fun s => decide (y < s) && decide (s < ny)) := by
        rw [hf]; exact List.mem_cons_self _ _
      have hx' := List.mem_filter.1 hx
      have hp := hx'.2
      simp only [Bool.and_eq_true, decide_eq_true_eq] at hp
      exact h x hx'.1 hp
  · intro s0 hs0 h1 h2
    have hs0f : s0 ∈ staff.filter (fun s => decide (y < s) && decide (s < ny)) := by
      refine List.mem_filter.2 ⟨hs0, ?_⟩
      simp [h1, h2]
    cases hf : staff.filter (fun s => decide (y < s) && decide (s < ny)) with
    | nil => rw [hf] at hs0f; cases hs0f
    | cons x xs =>
      have hm : xs.foldl max x ∈ staff.filter (fun s => decide (y < s) && decide (s < ny)) := by
        rw [hf]; exact foldlMax_mem xs x
      have hmf := List.mem_filter.1 hm
      have hmp := hmf.2
      simp only [Bool.and_eq_true, decide_eq_true_eq] at hmp
      refine ⟨xs.foldl max x, hmf.1, hmp.1, hmp.2, ?_, ?_⟩
      · intro s hs hy hny
        have hsf : s ∈ staff.filter (fun t => decide (y < t) && decide (t < ny)) := by
          refine List.mem_filter.2 ⟨hs, ?_⟩
          simp [hy, hny]
        rw [hf] at hsf
        exact le_foldlMax xs x s hsf
      · simp [bottomFor, hf]

theorem bottom_rule_spec_witness :
    ∃ m, m ∈ [(5 : Int), 300] ∧ (0 : Int) < m ∧ m < 400 ∧
      (∀ s ∈ [(5 : Int), 300], 0 < s → s < 400 → s ≤ m) ∧
      bottomFor 1000 [5, 300] 0 (some 400) = min (400 - 80) (m + 100) :=
  (bottom_rule_spec 1000 0 400 [5, 300]).2.2 5 (by decide) (by decide) (by decide)

theorem min_height_enforced_witness :
    floorBottom 0 50 = 200 ∧ (200 : Int) ≤ ((0 : Int), (200 : Int)).2 - ((0 : Int), (200 : Int)).1 :=
  ⟨(min_height_enforced 0 [] []).1 0 50 (by decide),
   (min_height_enforced 100 [] [0]).2.1 (0, 200) (by decide)⟩

/-! ### C2: behaviour of the visual fallback with zero peaks -/

/-- C2 counterexample: on a page of nonzero height (1000) whose peak
detection finds zero peaks, the visual fallback emits zero output images,
not one: the grouping loop never runs, so there is no whole-page fallback. -/
theorem visual_zero_peaks_cex : (visualCrops 1000 []).length ≠ 1 := by decide

/-- C2 (amended): when the label search is empty and peak detection finds
zero peaks, the system emits zero output images for the page — the peak
grouping is empty and so is the list of emitted crops; there is no
whole-page fallback, so a page of nonzero height can produce zero outputs. -/
theorem visual_zero_peaks_empty (H : Int) :
    groupPeaks [] = [] ∧ visualCrops H [] = [] :=
  ⟨rfl, rfl⟩

/-! ### C8: peak grouping in the visual fallback -/

lemma foldlMin_mem : ∀ (xs : List Int) (x : Int), xs.foldl min x ∈ x :: xs := by
  intro xs
  induction xs with
  | nil => intro x; simp
  | cons y ys ih =>
    intro x
    have h := ih (min x y)
    simp only [List.foldl_cons]
    rcases List.mem_cons.1 h with h1 | h1
    · rcases min_choice x y with hm | hm
      · exact List.mem_cons.2 (Or.inl (h1.trans hm))
      · exact List.mem_cons.2 (Or.inr (List.mem_cons.2 (Or.inl (h1.trans hm))))
    · exact List.mem_cons.2 (Or.inr (List.mem_cons.2 (Or.inr h1)))

lemma foldlMin_le : ∀ (xs : List Int) (x a : Int), a ∈ x :: xs → xs.foldl min x ≤ a := by
  intro xs
  induction xs with
  | nil => intro x a ha; simp at ha; simp [ha]
  | cons y ys ih =>
    intro x a ha
    simp only [List.foldl_cons]
    rcases List.mem_cons.1 ha with rfl | ha'
    · exact le_trans (ih _ _ (List.mem_cons_self _ _)) (min_le_left a y)
    · rcases List.mem_cons.1 ha' with rfl | ha''
      · exact le_trans (ih _ _ (List.mem_cons_self _ _)) (min_le_right x a)
      · exact ih _ _ (List.mem_cons.2 (Or.inr ha''))

lemma listMin_spec (g : List Int) (hg : g ≠ []) :
    listMin g ∈ g ∧ ∀ a ∈ g, listMin g ≤ a := by
  cases g with
  | nil => cases hg rfl
  | cons x xs => exact ⟨foldlMin_mem xs x, fun a ha => foldlMin_le xs x a ha⟩

lemma listMax_spec (g : List Int) (hg : g ≠ []) :
    listMax g ∈ g ∧ ∀ a ∈ g, a ≤ listMax g := by
  cases g with
  | nil => cases hg rfl
  | cons x xs => exact ⟨foldlMax_mem xs x, fun a ha => le_foldlMax xs x a ha⟩

/-- The first group produced for a nonempty peak list starts with the first
peak. -/
lemma groupPeaks_cons : ∀ (rest : List Int) (q : Int),
    ∃ g gs, groupPeaks (q :: rest) = g :: gs ∧ g.head? = some q := by
  intro rest
  induction rest with
  | nil => intro q; exact ⟨[q], [], rfl, rfl⟩
  | cons r rest ih =>
    intro q
    obtain ⟨g, gs, hg, hh⟩ := ih r
    by_cases hlt : r - q < 200
    · exact ⟨q :: g, gs, by simp [groupPeaks, hg, hlt], rfl⟩
    · exact ⟨[q], g :: gs, by simp [groupPeaks, hg, hlt], rfl⟩

/-- Combined induction for the grouping loop: order-preserving partition,
nonempty groups, gaps strictly below 200 inside a group, and gap at least
200 across a group boundary. -/
lemma groupPeaks_spec : ∀ (rest : List Int) (q : Int),
    (groupPeaks (q :: rest)).flatten = q :: rest ∧
    (∀ g ∈ groupPeaks (q :: rest), g ≠ []) ∧
    (∀ g ∈ groupPeaks (q :: rest), List.Chain' (fun a b => b - a < 200) g) ∧
    List.Chain' (fun g g2 => ∀ a b, g.getLast? = some a → g2.head? = some b → 200 ≤ b - a)
      (groupPeaks (q :: rest)) := by
  intro rest
  induction rest with
  | nil =>
    intro q
    refine ⟨rfl, ?_, ?_, List.chain'_singleton _⟩
    · intro g hg
      simp only [groupPeaks, List.mem_singleton] at hg
      subst hg
      simp
    · intro g hg
      simp only [groupPeaks, List.mem_singleton] at hg
      subst hg
      exact List.chain'_singleton _
  | cons r rest ih =>
    intro q
    obtain ⟨hjoin, hne, hchain, hbound⟩ := ih r
    obtain ⟨g, gs, hg, hh⟩ := groupPeaks_cons rest r
    rw [hg] at hjoin hne hchain hbound
    obtain ⟨gtail, rfl⟩ : ∃ gtail, g = r :: gtail := by
      cases g with
      | nil => cases hh
      | cons a as =>
        have har : a = r := by simpa using hh
        exact ⟨as, by rw [har]⟩
    by_cases hlt : r - q < 200
    · have hG : groupPeaks (q :: r :: rest) = (q :: r :: gtail) :: gs := by
        simp [groupPeaks, hg, hlt]
      refine ⟨?_, ?_, ?_, ?_⟩
      · rw [hG]
        simp only [List.flatten_cons] at hjoin ⊢
        rw [List.cons_append, hjoin]
      · intro g2 hg2
        rw [hG] at hg2
        rcases List.mem_cons.1 hg2 with rfl | hg2'
        · exact List.cons_ne_nil _ _
        · exact hne g2 (List.mem_cons.2 (Or.inr hg2'))
      · intro g2 hg2
        rw [hG] at hg2
        rcases List.mem_cons.1 hg2 with rfl | hg2'
        · exact List.chain'_cons.2 ⟨hlt, hchain _ (List.mem_cons_self _ _)⟩
        · exact hchain g2 (List.mem_cons.2 (Or.inr hg2'))
      · rw [hG]
        have hdec := List.chain'_cons'.1 hbound
        refine List.chain'_cons'.2 ⟨?_, hdec.2⟩
        intro g2 hg2 a b hlast hhead
        refine hdec.1 g2 hg2 a b ?_ hhead
        rwa [List.getLast?_cons_cons] at hlast
    · have hG : groupPeaks (q :: r :: rest) = [q] :: (r :: gtail) :: gs := by
        simp [groupPeaks, hg, hlt]
      refine ⟨?_, ?_, ?_, ?_⟩
      · rw [hG]
        simp only [List.flatten_cons] at hjoin ⊢
        rw [hjoin]
        rfl
      · intro g2 hg2
        rw [hG] at hg2
        rcases List.mem_cons.1 hg2 with rfl | hg2'
        · exact List.cons_ne_nil _ _
        · exact hne g2 hg2'
      · intro g2 hg2
        rw [hG] at hg2
        rcases List.mem_cons.1 hg2 with rfl | hg2'
        · exact List.chain'_singleton _
        · exact hchain g2 hg2'
      · rw [hG]
        refine List.chain'_cons.2 ⟨?_, hbound⟩
        intro a b hlast hhead
        simp only [List.getLast?_singleton, Option.some.injEq] at hlast
        simp only [List.head?_cons, Option.some.injEq] at hhead
        omega

/-- C8: the visual fallback partitions the peak sequence order-preservingly
into nonempty groups; inside a group consecutive peaks are separated by
strictly less than 200 pixels, across a group boundary by at least 200; and
each group's crop spans from the group minimum minus 100 to the group
maximum plus 100, clamped to the page bounds `[0, H]`. -/
theorem visual_grouping_spec (H : Int) (peaks : List Int) (hne : peaks ≠ []) :
    (groupPeaks peaks).flatten = peaks ∧
    (∀ g ∈ groupPeaks peaks, g ≠ []) ∧
    (∀ g ∈ groupPeaks peaks, List.Chain' (fun a b => b - a < 200) g) ∧
    List.Chain' (fun g g2 => ∀ a b, g.getLast? = some a → g2.head? = some b → 200 ≤ b - a)
      (groupPeaks peaks) ∧
    (∀ g ∈ groupPeaks peaks,
      listMin g ∈ g ∧ (∀ a ∈ g, listMin g ≤ a) ∧
        listMax g ∈ g ∧ (∀ a ∈ g, a ≤ listMax g)) ∧
    visualCrops H peaks =
      (groupPeaks peaks).map (fun g => (max 0 (listMin g - 100), min H (listMax g + 100))) := by
  cases peaks with
  | nil => cases hne rfl
  | cons q rest =>
    obtain ⟨h1, h2, h3, h4⟩ := groupPeaks_spec rest q
    refine ⟨h1, h2, h3, h4, ?_, rfl⟩
    intro g hg
    obtain ⟨hmin, hminle⟩ := listMin_spec g (h2 g hg)
    obtain ⟨hmax, hmaxle⟩ := listMax_spec g (h2 g hg)
    exact ⟨hmin, hminle, hmax, hmaxle⟩

theorem visual_grouping_spec_witness :
    List.Chain' (fun a b => b - a < (200 : Int)) [100, 250] :=
  (visual_grouping_spec 800 [100, 250, 600, 700] (by decide)).2.2.1 [100, 250] (by decide)
example : resolveCrops 100 [] [0, 50] = [(0, 200), (230, 430)] := by decide
example : paddedCrops 100 1000 [] [0, 50] =
    [⟨0, 100, 40, 960⟩, ⟨280, 100, 40, 960⟩] := by decide
example : bottomFor 2000 [540, 580, 180] 100 (some 500) = 280 := by decide

/-! ### C6: Label Locator ordering and duplicate removal -/

lemma insertByY_mem (x : Nat × Int) (l : List (Nat × Int)) (a : Nat × Int) :
    a ∈ insertByY x l ↔ a = x ∨ a ∈ l := by
  induction l with
  | nil => simp [insertByY]
  | cons y ys ih =>
    simp only [insertByY]
    split
    · simp [List.mem_cons]
    · simp only [List.mem_cons, ih]
      tauto

lemma insertByY_sorted (x : Nat × Int) (l : List (Nat × Int))
    (hl : List.Pairwise (fun a b => a.2 ≤ b.2) l) :
    List.Pairwise (fun a b => a.2 ≤ b.2) (insertByY x l) := by
  induction l with
  | nil => simp [insertByY]
  | cons y ys ih =>
    obtain ⟨hy, hys⟩ := List.pairwise_cons.1 hl
    simp only [insertByY]
    split
    · rename_i hle
      refine List.pairwise_cons.2 ⟨?_, hl⟩
      intro b hb
      rcases List.mem_cons.1 hb with rfl | hb'
      · exact hle
      · exact le_trans hle (hy b hb')
    · rename_i hgt
      refine List.pairwise_cons.2 ⟨?_, ih hys⟩
      intro b hb
      rcases (insertByY_mem x ys b).1 hb with rfl | hb'
      · omega
      · exact hy b hb'

lemma sortByY_mem (l : List (Nat × Int)) (a : Nat × Int) : a ∈ sortByY l ↔ a ∈ l := by
  induction l with
  | nil => simp [sortByY]
  | cons x xs ih => simp [sortByY, insertByY_mem, ih]

lemma sortByY_sorted (l : List (Nat × Int)) :
    List.Pairwise (fun a b => a.2 ≤ b.2) (sortByY l) := by
  induction l with
  | nil => simp [sortByY]
  | cons x xs ih => exact insertByY_sorted x _ ih

lemma dedupLabels_sublist : ∀ (l : List (Nat × Int)) (seen : List Nat),
    (dedupLabels l seen).Sublist l := by
  intro l
  induction l with
  | nil => intro seen; simp [dedupLabels]
  | cons x xs ih =>
    intro seen
    simp only [dedupLabels]
    split
    · exact (ih seen).cons x
    · exact (ih (x.1 :: seen)).cons₂ x

lemma dedupLabels_mem : ∀ (l : List (Nat × Int)) (seen : List Nat) (a : Nat × Int),
    a ∈ dedupLabels l seen → a ∈ l ∧ a.1 ∉ seen := by
  intro l
  induction l with
  | nil => intro seen a ha; simp [dedupLabels] at ha
  | cons x xs ih =>
    intro seen a ha
    simp only [dedupLabels] at ha
    split at ha
    · obtain ⟨h1, h2⟩ := ih seen a ha
      exact ⟨List.mem_cons.2 (Or.inr h1), h2⟩
    · rename_i hx
      rcases List.mem_cons.1 ha with rfl | ha'
      · exact ⟨List.mem_cons_self _ _, hx⟩
      · obtain ⟨h1, h2⟩ := ih (x.1 :: seen) a ha'
        exact ⟨List.mem_cons.2 (Or.inr h1), fun hs => h2 (List.mem_cons.2 (Or.inr hs))⟩

lemma dedupLabels_nodup : ∀ (l : List (Nat × Int)) (seen : List Nat),
    List.Pairwise (fun a b => a.1 ≠ b.1) (dedupLabels l seen) := by
  intro l
  induction l with
  | nil => intro seen; simp [dedupLabels]
  | cons x xs ih =>
    intro seen
    simp only [dedupLabels]
    split
    · exact ih seen
    · refine List.pairwise_cons.2 ⟨?_, ih (x.1 :: seen)⟩
      intro b hb heq
      have hnot := (dedupLabels_mem xs (x.1 :: seen) b hb).2
      exact hnot (by rw [← heq]; exact List.mem_cons_self _ _)

lemma dedupLabels_minY : ∀ (l : List (Nat × Int)) (seen : List Nat),
    List.Pairwise (fun a b => a.2 ≤ b.2) l →
    ∀ a ∈ dedupLabels l seen, ∀ c ∈ l, c.1 = a.1 → a.2 ≤ c.2 := by
  intro l
  induction l with
  | nil => intro seen _ a ha; simp [dedupLabels] at ha
  | cons x xs ih =>
    intro seen hs a ha c hc heq
    obtain ⟨hx, hxs⟩ := List.pairwise_cons.1 hs
    simp only [dedupLabels] at ha
    split at ha
    · rename_i hseen
      rcases List.mem_cons.1 hc with rfl | hc'
      · exfalso
        have hnot := (dedupLabels_mem xs seen a ha).2
        rw [← heq] at hnot
        exact hnot hseen
      · exact ih seen hxs a ha c hc' heq
    · rcases List.mem_cons.1 ha with rfl | ha'
      · rcases List.mem_cons.1 hc with rfl | hc'
        · exact le_refl _
        · exact hx c hc'
      · rcases List.mem_cons.1 hc with rfl | hc'
        · exfalso
          have hnot := (dedupLabels_mem xs (c.1 :: seen) a ha').2
          exact hnot (by rw [heq]; exact List.mem_cons_self _ _)
        · exact ih (x.1 :: seen) hxs a ha' c hc' heq

lemma dedupLabels_covers : ∀ (l : List (Nat × Int)) (seen : List Nat) (c : Nat × Int),
    c ∈ l → c.1 ∈ seen ∨ ∃ a ∈ dedupLabels l seen, a.1 = c.1 := by
  intro l
  induction l with
  | nil => intro seen c hc; cases hc
  | cons x xs ih =>
    intro seen c hc
    simp only [dedupLabels]
    rcases List.mem_cons.1 hc with rfl | hc'
    · split
      · rename_i h
        exact Or.inl h
      · exact Or.inr ⟨c, List.mem_cons_self _ _, rfl⟩
    · split
      · exact ih seen c hc'
      · rcases ih (x.1 :: seen) c hc' with hmem | ⟨a, ha, haeq⟩
        · rcases List.mem_cons.1 hmem with heq2 | hmem'
          · exact Or.inr ⟨x, List.mem_cons_self _ _, heq2.symm⟩
          · exact Or.inl hmem'
        · exact Or.inr ⟨a, List.mem_cons.2 (Or.inr ha), haeq⟩

/-- C6: the Label Locator's output is sorted ascending by y-position and has
pairwise-distinct exercise numbers; every output label is one of the
candidates; a retained label's y-position is minimal among the candidates
sharing its exercise number (the lowest-y occurrence survives); and every
candidate's number is represented — later duplicates are dropped silently,
never an error. -/
theorem label_dedup_sorted (spans : List (List Char × Int)) (scale : Int) :
    List.Pairwise (fun a b => a.2 ≤ b.2) (find_exercise_numbers spans scale) ∧
    List.Pairwise (fun a b => a.1 ≠ b.1) (find_exercise_numbers spans scale) ∧
    (∀ a ∈ find_exercise_numbers spans scale, a ∈ candidatesOf spans scale) ∧
    (∀ a ∈ find_exercise_numbers spans scale,
      ∀ c ∈ candidatesOf spans scale, c.1 = a.1 → a.2 ≤ c.2) ∧
    (∀ c ∈ candidatesOf spans scale, ∃ a ∈ find_exercise_numbers spans scale, a.1 = c.1) := by
  refine ⟨?_, ?_, ?_, ?_, ?_⟩
  · exact List.Pairwise.sublist (dedupLabels_sublist _ [])
      (sortByY_sorted (candidatesOf spans scale))
  · exact dedupLabels_nodup _ []
  · intro a ha
    exact (sortByY_mem _ a).1 (dedupLabels_mem _ [] a ha).1
  · intro a ha c hc heq
    exact dedupLabels_minY _ [] (sortByY_sorted _) a ha c ((sortByY_mem _ c).2 hc) heq
  · intro c hc
    rcases dedupLabels_covers _ [] c ((sortByY_mem _ c).2 hc) with h | h
    · cases h
    · exact h

theorem label_dedup_sorted_witness :
    ((2 : Nat), (15 : Int)).2 ≤ ((2 : Nat), (150 : Int)).2 :=
  (label_dedup_sorted [("No. 2".toList, 50), ("No. 1".toList, 10), ("No. 2".toList, 5)] 3).2.2.2.1
    (2, 15) (by decide) (2, 150) (by decide) (by decide)

/-! ### C7: the label-candidate acceptance pattern -/

/-- The acceptance rule as the spec words it: the prefix must be
immediately followed by at least ONE whitespace character and then one or
more digits (`\s+\d+` rather than the code's `\s*\d+`). -/
def digitsAfterWsSpec (s : List Char) : Bool :=
  match s with
  | [] => false
  | c :: rest => isPyWs c && digitsAfterWs rest

/-- The spec-worded acceptance predicate, for comparison with the code's
`matchesLabel`. -/
def matchesLabelSpec (t : List Char) : Bool :=
  (match stripCI "No.".toList t with | some r => digitsAfterWsSpec r | none => false)
    || (match stripCI "Number".toList t with | some r => digitsAfterWsSpec r | none => false)
    || (match stripCI "Exercise".toList t with | some r => digitsAfterWsSpec r | none => false)

lemma stripCI_eq_some : ∀ (p t r : List Char),
    stripCI p t = some r ↔ ∃ q, t = q ++ r ∧ q.map Char.toLower = p.map Char.toLower := by
  intro p
  induction p with
  | nil =>
    intro t r
    simp only [stripCI, Option.some.injEq, List.map_nil]
    constructor
    · intro h
      exact ⟨[], by simp [h], rfl⟩
    · rintro ⟨q, hq, hlow⟩
      have hq0 : q = [] := List.map_eq_nil_iff.1 hlow
      subst hq0
      simpa using hq
  | cons a p ih =>
    intro t r
    cases t with
    | nil =>
      constructor
      · intro h
        simp [stripCI] at h
      · rintro ⟨q, hq, hlow⟩
        obtain ⟨hq0, -⟩ := List.append_eq_nil.1 hq.symm
        subst hq0
        simp at hlow
    | cons b s =>
      simp only [stripCI]
      by_cases hab : a.toLower = b.toLower
      · rw [if_pos hab, ih s r]
        constructor
        · rintro ⟨q, hq, hlow⟩
          exact ⟨b :: q, by simp [hq], by simp [hlow, hab]⟩
        · rintro ⟨q, hq, hlow⟩
          cases q with
          | nil => simp at hlow
          | cons qh qt =>
            simp only [List.cons_append, List.cons.injEq] at hq
            simp only [List.map_cons, List.cons.injEq] at hlow
            exact ⟨qt, hq.2, hlow.2⟩
      · rw [if_neg hab]
        constructor
        · intro h
          cases h
        · rintro ⟨q, hq, hlow⟩
          exfalso
          cases q with
          | nil => simp at hlow
          | cons qh qt =>
            simp only [List.cons_append, List.cons.injEq] at hq
            simp only [List.map_cons, List.cons.injEq] at hlow
            rw [← hq.1] at hlow
            exact hab hlow.1.symm

lemma isPyWs_not_digit (c : Char) (h : isPyWs c = true) : c.isDigit = false := by
  simp only [isPyWs, Bool.or_eq_true, decide_eq_true_eq] at h
  rcases h with ((((rfl | rfl) | rfl) | rfl) | rfl) | rfl <;> rfl

lemma digitsAfterWs_iff : ∀ (s : List Char),
    digitsAfterWs s = true ↔
      ∃ ws d rest, s = ws ++ d :: rest ∧ (∀ c ∈ ws, isPyWs c = true) ∧ d.isDigit = true := by
  intro s
  induction s with
  | nil =>
    constructor
    · intro h
      simp [digitsAfterWs] at h
    · rintro ⟨ws, d, rest, heq, -, -⟩
      exfalso
      cases ws <;> simp at heq
  | cons c s ih =>
    by_cases hws : isPyWs c = true
    · have hd : digitsAfterWs (c :: s) = digitsAfterWs s := by
        simp [digitsAfterWs, List.dropWhile_cons, hws]
      rw [hd, ih]
      constructor
      · rintro ⟨ws, d, rest, rfl, hall, hdig⟩
        refine ⟨c :: ws, d, rest, rfl, ?_, hdig⟩
        intro x hx
        rcases List.mem_cons.1 hx with rfl | hx'
        · exact hws
        · exact hall x hx'
      · rintro ⟨ws, d, rest, heq, hall, hdig⟩
        cases ws with
        | nil =>
          exfalso
          simp only [List.nil_append, List.cons.injEq] at heq
          rw [heq.1] at hws
          rw [isPyWs_not_digit d hws] at hdig
          cases hdig
        | cons w ws' =>
          simp only [List.cons_append, List.cons.injEq] at heq
          exact ⟨ws', d, rest, heq.2, fun x hx => hall x (List.mem_cons.2 (Or.inr hx)), hdig⟩
    · have hd : digitsAfterWs (c :: s) = c.isDigit := by
        simp [digitsAfterWs, List.dropWhile_cons, hws]
      rw [hd]
      constructor
      · intro hdig
        refine ⟨[], c, s, rfl, ?_, hdig⟩
        intro x hx
        cases hx
      · rintro ⟨ws, d, rest, heq, hall, hdig⟩
        cases ws with
        | nil =>
          simp only [List.nil_append, List.cons.injEq] at heq
          rw [heq.1]
          exact hdig
        | cons w ws' =>
          exfalso
          simp only [List.cons_append, List.cons.injEq] at heq
          have hw := hall w (List.mem_cons_self _ _)
          rw [← heq.1] at hw
          exact hws hw

lemma matchAlt_iff (pat t : List Char) :
    (match stripCI pat t with | some r => digitsAfterWs r | none => false) = true ↔
      ∃ q r, t = q ++ r ∧ q.map Char.toLower = pat.map Char.toLower ∧
        digitsAfterWs r = true := by
  cases h : stripCI pat t with
  | none =>
    simp only [Bool.false_eq_true, false_iff]
    rintro ⟨q, r, heq, hlow, -⟩
    have h2 := (stripCI_eq_some pat t r).2 ⟨q, heq, hlow⟩
    rw [h] at h2
    cases h2
  | some r0 =>
    constructor
    · intro hdig
      obtain ⟨q, heq, hlow⟩ := (stripCI_eq_some pat t r0).1 h
      exact ⟨q, r0, heq, hlow, hdig⟩
    · rintro ⟨q, r, heq, hlow, hdig⟩
      have h2 := (stripCI_eq_some pat t r).2 ⟨q, heq, hlow⟩
      rw [h] at h2
      have hr : r = r0 := (Option.some.inj h2).symm
      subst hr
      exact hdig

/-- C7 counterexample: the trimmed span text "No.12", with NO whitespace
between the prefix and the digits, IS accepted by the code's pattern
(`\s*` matches the empty string), while the spec-worded rule requiring at
least one whitespace character rejects it. -/
theorem label_regex_ws_cex :
    matchesLabel "No.12".toList = true ∧ matchesLabelSpec "No.12".toList = false :=
  ⟨rfl, rfl⟩

/-- C7 (amended): a trimmed span is accepted exactly when it begins,
case-insensitively, with one of the literal prefixes "No.", "Number" or
"Exercise" followed by ZERO or more whitespace characters and then at least
one digit — a span with no whitespace between prefix and digits is also
accepted.  On the accepted span "No. 12" the digit run directly after the
prefix is parsed as exercise number 12. -/
theorem label_regex_charac (t : List Char) :
    (matchesLabel t = true ↔
      ∃ q ws d rest, t = q ++ ws ++ d :: rest ∧
        (q.map Char.toLower = "no.".toList ∨ q.map Char.toLower = "number".toList ∨
          q.map Char.toLower = "exercise".toList) ∧
        (∀ c ∈ ws, isPyWs c = true) ∧ d.isDigit = true) ∧
    matchesLabel "No. 12".toList = true ∧ labelNumber "No. 12".toList = some 12 := by
  refine ⟨?_, rfl, rfl⟩
  have hno : "No.".toList.map Char.toLower = "no.".toList := by decide
  have hnum : "Number".toList.map Char.toLower = "number".toList := by decide
  have hex : "Exercise".toList.map Char.toLower = "exercise".toList := by decide
  constructor
  · intro h
    simp only [matchesLabel, Bool.or_eq_true] at h
    rcases h with (h | h) | h <;>
      obtain ⟨q, r, heq, hlow, hdig⟩ := (matchAlt_iff _ t).1 h <;>
      obtain ⟨ws, d, rest, rfl, hall, hd⟩ := (digitsAfterWs_iff r).1 hdig
    · exact ⟨q, ws, d, rest, by simp [heq], Or.inl (by rw [hlow, hno]), hall, hd⟩
    · exact ⟨q, ws, d, rest, by simp [heq], Or.inr (Or.inl (by rw [hlow, hnum])), hall, hd⟩
    · exact ⟨q, ws, d, rest, by simp [heq], Or.inr (Or.inr (by rw [hlow, hex])), hall, hd⟩
  · rintro ⟨q, ws, d, rest, rfl, hpre, hall, hd⟩
    simp only [matchesLabel, Bool.or_eq_true]
    have hdig : digitsAfterWs (ws ++ d :: rest) = true :=
      (digitsAfterWs_iff _).2 ⟨ws, d, rest, rfl, hall, hd⟩
    rcases hpre with hp | hp | hp
    · exact Or.inl (Or.inl ((matchAlt_iff _ _).2
        ⟨q, ws ++ d :: rest, by simp, by rw [hp, hno], hdig⟩))
    · exact Or.inl (Or.inr ((matchAlt_iff _ _).2
        ⟨q, ws ++ d :: rest, by simp, by rw [hp, hnum], hdig⟩))
    · exact Or.inr ((matchAlt_iff _ _).2
        ⟨q, ws ++ d :: rest, by simp, by rw [hp, hex], hdig⟩)

theorem label_regex_charac_witness :
    ∃ q ws d rest, "Exercise 5".toList = q ++ ws ++ d :: rest ∧
      (q.map Char.toLower = "no.".toList ∨ q.map Char.toLower = "number".toList ∨
        q.map Char.toLower = "exercise".toList) ∧
      (∀ c ∈ ws, isPyWs c = true) ∧ d.isDigit = true :=
  ((label_regex_charac "Exercise 5".toList).1).1 (by rfl)

/-! ### C9: the white-padding step -/

lemma getD_append_left {α : Type} (l1 l2 : List α) (d : α) (i : Nat) (h : i < l1.length) :
    (l1 ++ l2).getD i d = l1.getD i d := by
  simp [List.getD_eq_getElem?_getD, List.getElem?_append, h]

lemma getD_append_right {α : Type} (l1 l2 : List α) (d : α) (i : Nat) (h : l1.length ≤ i) :
    (l1 ++ l2).getD i d = l2.getD (i - l1.length) d := by
  simp [List.getD_eq_getElem?_getD, List.getElem?_append_right h]

lemma getD_replicate {α : Type} (a d : α) (n i : Nat) (h : i < n) :
    (List.replicate n a).getD i d = a := by
  simp [List.getD_eq_getElem?_getD, List.getElem?_replicate, h]

lemma getD_map {α β : Type} (f : α → β) (g : List α) (i : Nat) (d : β) (d' : α)
    (h : i < g.length) :
    (g.map f).getD i d = f (g.getD i d') := by
  simp [List.getD_eq_getElem?_getD, List.getElem?_map, List.getElem?_eq_getElem h]

lemma getD_mem {α : Type} (g : List α) (i : Nat) (d : α) (h : i < g.length) :
    g.getD i d ∈ g := by
  rw [List.getD_eq_getElem?_getD, List.getElem?_eq_getElem h]
  exact List.getElem_mem h

lemma padArr_length {α : Type} (img : List (List α)) (w : α) (t b l r : Nat) :
    (padArr img w t b l r).length = t + img.length + b := by
  simp only [padArr, List.length_append, List.length_replicate, List.length_map]

lemma padArr_rows {α : Type} (img : List (List α)) (w : α) (t b l r W : Nat)
    (hrect : ∀ row ∈ img, row.length = W) (hW : (img.headD []).length = W) :
    ∀ row ∈ padArr img w t b l r, row.length = l + W + r := by
  intro row hrow
  simp only [padArr, hW, List.mem_append, List.mem_replicate, List.mem_map] at hrow
  rcases hrow with (⟨-, rfl⟩ | ⟨a, ha, rfl⟩) | ⟨-, rfl⟩
  · simp
  · simp [hrect a ha]
    omega
  · simp

lemma padArr_mem {α : Type} (img : List (List α)) (w : α) (t b l r : Nat) :
    ∀ row ∈ padArr img w t b l r, ∀ x ∈ row, x = w ∨ ∃ row0 ∈ img, x ∈ row0 := by
  intro row hrow x hx
  simp only [padArr, List.mem_append, List.mem_replicate, List.mem_map] at hrow
  rcases hrow with (⟨-, rfl⟩ | ⟨a, ha, rfl⟩) | ⟨-, rfl⟩
  · exact Or.inl (List.eq_of_mem_replicate hx)
  · simp only [List.mem_append, List.mem_replicate] at hx
    rcases hx with (⟨-, rfl⟩ | hx') | ⟨-, rfl⟩
    · exact Or.inl rfl
    · exact Or.inr ⟨a, ha, hx'⟩
    · exact Or.inl rfl
  · exact Or.inl (List.eq_of_mem_replicate hx)

lemma padArr_border {α : Type} (img : List (List α)) (w d : α) (t b l r W : Nat)
    (hrect : ∀ row ∈ img, row.length = W) (hW : (img.headD []).length = W) :
    ∀ i j, i < t + img.length + b → j < l + W + r →
      (i < t ∨ t + img.length ≤ i ∨ j < l ∨ l + W ≤ j) →
      ((padArr img w t b l r).getD i []).getD j d = w := by
  intro i j hi hj hb
  simp only [padArr, hW]
  by_cases hit : i < t
  · rw [getD_append_left _ _ _ _ (by simp; omega),
      getD_append_left _ _ _ _ (by simpa using hit),
      getD_replicate _ _ _ _ hit, getD_replicate _ _ _ _ hj]
  · have hit' : t ≤ i := le_of_not_lt hit
    by_cases him : i - t < img.length
    · -- middle zone: only the j-conditions of the border can apply
      rw [getD_append_left _ _ _ _ (by simp; omega),
        getD_append_right _ _ _ _ (by simpa using hit')]
      simp only [List.length_replicate]
      rw [getD_map _ _ _ _ [] him]
      have hlen : (img.getD (i - t) []).length = W :=
        hrect _ (getD_mem img (i - t) [] him)
      have hjb : j < l ∨ l + W ≤ j := by
        rcases hb with h | h | h | h
        · omega
        · omega
        · exact Or.inl h
        · exact Or.inr h
      rcases hjb with hjl | hjr
      · rw [getD_append_left _ _ _ _ (by simp; omega),
          getD_append_left _ _ _ _ (by simpa using hjl),
          getD_replicate _ _ _ _ hjl]
      · rw [getD_append_right _ _ _ _
          (by rw [List.length_append, List.length_replicate, hlen]; omega)]
        rw [List.length_append, List.length_replicate, hlen]
        rw [getD_replicate _ _ _ _ (by omega)]
    · -- bottom zone
      have him' : img.length ≤ i - t := le_of_not_lt him
      rw [getD_append_right _ _ _ _ (by simp; omega)]
      simp only [List.length_append, List.length_replicate, List.length_map]
      rw [getD_replicate _ _ _ _ (by omega), getD_replicate _ _ _ _ hj]

/-- C9: for a rectangular input (single- or multi-channel), the white-border
step returns an array with exactly `t + H + b` rows of `l + W + r` entries
each (color pixels keep their `Ch` channels), every added border entry is
white (255 for grayscale, all-channels-255 for color), and both branches of
`add_white_padding` are total functions of their input. -/
theorem padding_dims_border (g : List (List Nat)) (c : List (List (List Nat)))
    (t b l r W Ch : Nat)
    (hg : ∀ row ∈ g, row.length = W) (hgW : (g.headD []).length = W)
    (hc : ∀ row ∈ c, row.length = W) (hcW : (c.headD []).length = W)
    (hch : ∀ row ∈ c, ∀ px ∈ row, px.length = Ch)
    (hcCh : ((c.headD []).headD []).length = Ch) :
    add_white_padding (.gray g) t b l r = .gray (padGray g t b l r) ∧
    (padGray g t b l r).length = t + g.length + b ∧
    (∀ row ∈ padGray g t b l r, row.length = l + W + r) ∧
    (∀ i j, i < t + g.length + b → j < l + W + r →
      (i < t ∨ t + g.length ≤ i ∨ j < l ∨ l + W ≤ j) →
      ((padGray g t b l r).getD i []).getD j 0 = 255) ∧
    add_white_padding (.color c) t b l r = .color (padColor c t b l r) ∧
    (padColor c t b l r).length = t + c.length + b ∧
    (∀ row ∈ padColor c t b l r, row.length = l + W + r) ∧
    (∀ row ∈ padColor c t b l r, ∀ px ∈ row, px.length = Ch) ∧
    (∀ i j, i < t + c.length + b → j < l + W + r →
      (i < t ∨ t + c.length ≤ i ∨ j < l ∨ l + W ≤ j) →
      ((padColor c t b l r).getD i []).getD j [] = List.replicate Ch 255) := by
  refine ⟨rfl, padArr_length g 255 t b l r, padArr_rows g 255 t b l r W hg hgW,
    padArr_border g 255 0 t b l r W hg hgW, rfl,
    padArr_length c _ t b l r, padArr_rows c _ t b l r W hc hcW, ?_, ?_⟩
  · intro row hrow px hpx
    rcases padArr_mem c _ t b l r row hrow px hpx with rfl | ⟨row0, hrow0, hpx0⟩
    · rw [List.length_replicate]
      exact hcCh
    · exact hch row0 hrow0 px hpx0
  · have hb := padArr_border c (List.replicate ((c.headD []).headD []).length 255) []
      t b l r W hc hcW
    intro i j hi hj hcond
    rw [← hcCh]
    exact hb i j hi hj hcond

theorem padding_dims_border_witness :
    (padGray [[1, 2]] 1 1 1 1).length = 1 + 1 + 1 ∧
      ((padGray [[1, 2]] 1 1 1 1).getD 0 []).getD 0 0 = 255 :=
  ⟨(padding_dims_border [[1, 2]] [[[9, 9, 9], [8, 8, 8]]] 1 1 1 1 2 3 (by decide)
      (by decide) (by decide) (by decide) (by decide) (by decide)).2.1,
   (padding_dims_border [[1, 2]] [[[9, 9, 9], [8, 8, 8]]] 1 1 1 1 2 3 (by decide)
      (by decide) (by decide) (by decide) (by decide) (by decide)).2.2.2.1 0 0
      (by decide) (by decide) (Or.inl (by decide))⟩

/-! ### C10: the cleanup step discards color -/

lemma range_map_getD_length {α : Type} (g : List (List α)) :
    (List.range g.length).map (fun i => (g.getD i []).length) = g.map List.length := by
  induction g with
  | nil => rfl
  | cons x xs ih =>
    rw [List.length_cons, List.range_succ_eq_map, List.map_cons, List.map_map, List.map_cons]
    have htail : List.map ((fun i => ((x :: xs).getD i []).length) ∘ Nat.succ)
        (List.range xs.length) = List.map List.length xs := by
      rw [← ih]
      apply List.map_congr_left
      intro i hi
      simp [List.getD_eq_getElem?_getD]
    rw [htail]
    simp [List.getD_eq_getElem?_getD]

lemma mapIdx2_length (g : List (List Nat)) (f : Nat → Nat → Nat) :
    (mapIdx2 g f).length = g.length := by
  simp [mapIdx2]

lemma mapIdx2_rowlens (g : List (List Nat)) (f : Nat → Nat → Nat) :
    (mapIdx2 g f).map List.length = g.map List.length := by
  simp only [mapIdx2, List.map_map]
  rw [← range_map_getD_length g]
  apply List.map_congr_left
  intro i hi
  simp

lemma toGray_rowlens (img : List (List (List Nat))) :
    (toGray img).map List.length = img.map List.length := by
  simp only [toGray, List.map_map]
  apply List.map_congr_left
  intro a ha
  simp

lemma gray2rgb_rowlens (g : List (List Nat)) :
    (gray2rgb g).map List.length = g.map List.length := by
  simp only [gray2rgb, List.map_map]
  apply List.map_congr_left
  intro a ha
  simp

/-- C10: on a 3-channel input the cleanup step returns an image with the
same number of rows and the same row lengths, in which every pixel is a
triple `[v, v, v]` of three identical channel values — the grayscale result
of the closing is replicated into RGB, so any color information in the
input crop is discarded. -/
theorem clean_channels_equal (img : List (List (List Nat)))
    (hch : ∀ row ∈ img, ∀ px ∈ row, px.length = 3) :
    (clean_exercise_image img).length = img.length ∧
    (clean_exercise_image img).map List.length = img.map List.length ∧
    (∀ row ∈ clean_exercise_image img, ∀ px ∈ row, px.length = 3 ∧ ∃ v, px = [v, v, v]) := by
  refine ⟨?_, ?_, ?_⟩
  · calc (clean_exercise_image img).length
        = (closing2 (toGray img)).length := by simp [clean_exercise_image, gray2rgb]
      _ = (dilate2 (toGray img)).length := mapIdx2_length _ _
      _ = (toGray img).length := mapIdx2_length _ _
      _ = img.length := by simp [toGray]
  · calc (clean_exercise_image img).map List.length
        = (closing2 (toGray img)).map List.length := gray2rgb_rowlens _
      _ = (dilate2 (toGray img)).map List.length := mapIdx2_rowlens _ _
      _ = (toGray img).map List.length := mapIdx2_rowlens _ _
      _ = img.map List.length := toGray_rowlens _
  · intro row hrow px hpx
    simp only [clean_exercise_image, gray2rgb, List.mem_map] at hrow
    obtain ⟨r0, hr0, rfl⟩ := hrow
    simp only [List.mem_map] at hpx
    obtain ⟨v, hv, rfl⟩ := hpx
    exact ⟨rfl, v, rfl⟩

theorem clean_channels_equal_witness :
    (clean_exercise_image [[[1, 2, 3]]]).length
      = ([[[1, 2, 3]]] : List (List (List Nat))).length :=
  (clean_channels_equal [[[1, 2, 3]]] (by decide)).1
